import Mathlib

/-!
# Verification of the gh-streaks streak engine

Shallow embedding of the streak-calculation service
(`src/services/github.service.ts`), the badge tier table
(`src/services/badge.service.ts`) and the year-windowed fetch loop
(the `getCommitHistory` while-loop draft).

Modelling conventions:
* A calendar date key (`YYYY-MM-DD` string) is represented by its epoch day
  number, `Day := Nat`.  Lexicographic comparison of fixed-width zero-padded
  date strings coincides with numeric comparison of day numbers, `yesterday`
  (today minus 24 hours, re-formatted) is `today - 1`, and two calendar days
  are consecutive exactly when the second day number is the first plus one.
* A `ContributionMap` (JS object mapping date keys to counts) is represented
  by its entry list `List (Day × Int)`; the engine sorts the entries by key
  exactly as `Object.entries(contributions).sort(([a], [b]) => a.localeCompare(b))`
  does.  A well-formed map has pairwise distinct keys, so its sorted entry
  list is strictly increasing in the first component (`sortedKeys`).
* Counts are `Int` (JS `number` restricted to integers); the API contract
  makes them non-negative, which claims state as an explicit hypothesis.
-/

namespace GhStreaks

/-- One `(date, count)` entry of a contribution map; the `Nat` component is
the epoch day number standing for a `YYYY-MM-DD` date-key string. -/
abbrev ContribEntry := Nat × Int

/-- The entry list of a `ContributionMap`. -/
abbrev ContribList := List ContribEntry

/-- Output record of the streak engine (`StreakStats` in
`github.service.ts`): current streak, longest streak, total commits and the
last commit date (`null` becomes `none`). -/
structure StreakStats where
  currentStreak : Nat
  longestStreak : Nat
  totalCommits : Int
  lastCommitDate : Option Nat
deriving DecidableEq, Repr

/-- The entries of a well-formed contribution map, sorted by date key:
strictly increasing first components. -/
def sortedKeys (l : ContribList) : Prop :=
  l.Pairwise (fun a b => a.1 < b.1)

instance (l : ContribList) : Decidable (sortedKeys l) :=
  inferInstanceAs (Decidable (l.Pairwise _))

/-- `Object.entries(contributions).sort(([a], [b]) => a.localeCompare(b))`:
sorting the entry list by date key.  On the pairwise-distinct keys of a map
every comparison-based sort returns the unique key-sorted permutation, so
insertion sort is an exact model. -/
def sortEntries (contributions : ContribList) : ContribList :=
  contributions.insertionSort (fun a b => a.1 ≤ b.1)

/-- `findLastCommitDate` from `github.service.ts`:
`dates.findLast(([, count]) => count > 0)?.[0] ?? null`. -/
def findLastCommitDate (dates : ContribList) : Option Nat :=
  (dates.reverse.find? (fun p => decide (0 < p.2))).map Prod.fst

/-- The edge-case test opening `calculateCurrentStreak`:
`dates.at(-1)?.[0] === todayStr && dates.at(-1)?.[1] === 0`. -/
def isTodayZeroLast (dates : ContribList) (todayStr : Nat) : Bool :=
  match dates.getLast? with
  | some (d, c) => d == todayStr && c == 0
  | none => false

/-- `dates.some(([date, count]) => date === yesterdayStr && count > 0)`
from `calculateCurrentStreak` (specialised to any probe day). -/
def hasPositiveOn (dates : ContribList) (day : Nat) : Bool :=
  dates.any (fun p => p.1 == day && decide (0 < p.2))

/-- The scan loop of `calculateCurrentStreak`, running over
`dates.toReversed()`: skip a zero-count `today` entry, break on any other
zero count, count every other entry. -/
def countStreakRev (todayStr : Nat) : List ContribEntry → Nat
  | [] => 0
  | (date, count) :: rest =>
    if date = todayStr ∧ count = 0 then countStreakRev todayStr rest
    else if count = 0 then 0
    else countStreakRev todayStr rest + 1

/-- `calculateCurrentStreak` from `github.service.ts`: the yesterday
edge-case check followed by the reversed scan. -/
def calculateCurrentStreak (dates : ContribList) (todayStr yesterdayStr : Nat) : Nat :=
  if isTodayZeroLast dates todayStr && !hasPositiveOn dates yesterdayStr then 0
  else countStreakRev todayStr dates.reverse

/-- The reducer of `calculateLongestStreak`:
`newStreak = count > 0 ? currentStreak + 1 : 0`, tracking the maximum. -/
def longestStep (acc : Nat × Nat) (p : ContribEntry) : Nat × Nat :=
  let newStreak := if 0 < p.2 then acc.1 + 1 else 0
  (newStreak, max acc.2 newStreak)

/-- `calculateLongestStreak` from `github.service.ts`: a left fold with
`longestStep` starting from `{currentStreak: 0, maxStreak: 0}`. -/
def calculateLongestStreak (dates : ContribList) : Nat :=
  (dates.foldl longestStep (0, 0)).2

/-- `calculateTotalCommits` from `github.service.ts`:
`Object.values(contributions).reduce((sum, count) => sum + count, 0)`. -/
def calculateTotalCommits (contributions : ContribList) : Int :=
  contributions.foldl (fun sum p => sum + p.2) 0

/-- `calculateStreaks` from `github.service.ts`: sort the entries, derive
`todayStr` and `yesterdayStr` (today minus one day) and assemble the four
statistics.  The function itself performs no future-date filtering. -/
def calculateStreaks (contributions : ContribList) (today : Nat) : StreakStats :=
  let dates := sortEntries contributions
  let todayStr := today
  let yesterdayStr := today - 1
  { currentStreak := calculateCurrentStreak dates todayStr yesterdayStr
    longestStreak := calculateLongestStreak dates
    totalCommits := calculateTotalCommits contributions
    lastCommitDate := findLastCommitDate dates }

/-- JS object assignment `contributions[day.date] = day.contributionCount`:
overwrite the entry for an existing key, otherwise append. -/
def insertContribution (m : ContribList) (d : Nat) (c : Int) : ContribList :=
  if m.any (fun q => q.1 == d) then
    m.map (fun q => if q.1 == d then (d, c) else q)
  else m ++ [(d, c)]

/-- `collectContributions` from `github.service.ts`: walk all fetched
per-day entries and insert each one whose date is not after `today`
(`!isFuture(date) && format(date, 'yyyy-MM-dd') <= todayStr`; in the
single-frame day model both conjuncts are `d ≤ today`). -/
def collectContributions (days : List ContribEntry) (today : Nat) : ContribList :=
  days.foldl (fun m p => if p.1 ≤ today then insertContribution m p.1 p.2 else m) []

/-- Removing every entry dated strictly after `today` from an entry list
(the transformation the claims compare against). -/
def removeFuture (days : List ContribEntry) (today : Nat) : List ContribEntry :=
  days.filter (fun p => p.1 ≤ today)

/-- The length of the maximal leading block of nonzero-count entries: the
value the reversed scan of `calculateCurrentStreak` computes once the
zero-count `today` entry (if any) has been passed. -/
def leadingRun : List ContribEntry → Nat
  | [] => 0
  | p :: rest => if p.2 = 0 then 0 else leadingRun rest + 1

/-- Executable test that successive entries sit on consecutive calendar
days (each date key is the previous one plus one day). -/
def consecutiveDays : ContribList → Bool
  | [] => true
  | [_] => true
  | p :: q :: rest => q.1 == p.1 + 1 && consecutiveDays (q :: rest)

/-- Modelled from the spec: the length of the run of consecutive calendar
days with positive counts ending at day `d` — counts `d`, `d - 1`, … while
each day is present in the map with a positive count.  Used to state what
the specification means by a streak ending at a given day. -/
def specConsecutiveRunEndingAt (dates : ContribList) : Nat → Nat
  | 0 => if hasPositiveOn dates 0 then 1 else 0
  | d + 1 => if hasPositiveOn dates (d + 1) then specConsecutiveRunEndingAt dates d + 1 else 0

/-- A badge tier record from `badge.service.ts` (`Tier` interface). -/
structure Tier where
  emoji : String
  label : String
  gradientStart : String
  gradientEnd : String
deriving DecidableEq, Repr

/-- `BadgeService.THRESHOLDS` from `badge.service.ts`. -/
def THRESHOLDS : List Nat :=
  [3, 7, 14, 21, 30, 50, 100, 250, 365, 500, 750, 1000]

/-- `BadgeService.getTier` from `badge.service.ts`: the descending chain of
inclusive threshold tests. -/
def getTier (streak : Nat) : Tier :=
  if streak ≥ 1000 then ⟨"🌌", "Universal Constant", "#020617", "#1e1b4b"⟩
  else if streak ≥ 750 then ⟨"🪐", "Celestial", "#2e1065", "#581c87"⟩
  else if streak ≥ 500 then ⟨"☄️", "Cosmic", "#312e81", "#4c1d95"⟩
  else if streak ≥ 365 then ⟨"🌠", "Astral", "#1e3a8a", "#3730a3"⟩
  else if streak ≥ 250 then ⟨"🌑", "Lunar", "#0f172a", "#1e293b"⟩
  else if streak ≥ 100 then ⟨"🔮", "Mythical", "#3b0764", "#9333ea"⟩
  else if streak ≥ 50 then ⟨"🌟", "Legendary", "#854d0e", "#ca8a04"⟩
  else if streak ≥ 30 then ⟨"👑", "Royal", "#b45309", "#d97706"⟩
  else if streak ≥ 21 then ⟨"🚀", "Soaring", "#0369a1", "#0284c7"⟩
  else if streak ≥ 14 then ⟨"💪", "Strong", "#7f1d1d", "#991b1b"⟩
  else if streak ≥ 7 then ⟨"⚡", "Electric", "#ca8a04", "#eab308"⟩
  else if streak ≥ 3 then ⟨"🔥", "On Fire", "#9a3412", "#ea580c"⟩
  else ⟨"🌱", "Seedling", "#166534", "#16a34a"⟩

/-- The greatest entry of the ascending threshold table that is at most
`streak` ("each bound inclusive, highest matching bound wins"): scan the
table in ascending order, keeping the last matching bound. -/
def bestThreshold (streak : Nat) : Option Nat :=
  THRESHOLDS.foldl (fun acc t => if t ≤ streak then some t else acc) none

/-- The year-walking loop of the `getCommitHistory` draft: having just
fetched year `y`, continue to year `y - 1` exactly when January 1st of `y`
had positive activity (`pos y`) and the five-year look-back bound is not yet
reached (`y > currentYear - 5`); the returned list records every fetched
year in fetch order. -/
def fetchYearsGo (pos : Int → Bool) (cy : Int) (y : Int) : List Int :=
  if h : pos y = true ∧ cy - 5 < y then y :: fetchYearsGo pos cy (y - 1)
  else [y]
termination_by (y - (cy - 5)).toNat
decreasing_by
  omega

/-- The year sequence fetched by the `getCommitHistory` while-loop: start at
the current year and walk backward. -/
def getCommitHistoryYears (pos : Int → Bool) (currentYear : Int) : List Int :=
  fetchYearsGo pos currentYear currentYear

/-! ## Supporting lemmas -/

theorem sortEntries_eq_self {l : ContribList} (h : sortedKeys l) : sortEntries l = l := by
  have h' : List.Sorted (fun a b : ContribEntry => a.1 ≤ b.1) l :=
    List.Pairwise.imp (fun hab => le_of_lt hab) h
  exact h'.insertionSort_eq

theorem countStreakRev_eq_leadingRun {today : Nat} :
    ∀ {l : List ContribEntry}, (∀ p ∈ l, ¬(p.1 = today ∧ p.2 = 0)) →
      countStreakRev today l = leadingRun l
  | [], _ => rfl
  | (d, c) :: t, h => by
    have hp : ¬(d = today ∧ c = 0) := h (d, c) (by simp)
    have ih := countStreakRev_eq_leadingRun (l := t) (fun q hq => h q (by simp [hq]))
    simp only [countStreakRev, leadingRun, if_neg hp]
    by_cases hc : c = 0 <;> simp [hc, ih]

theorem countStreakRev_append (today : Nat) :
    ∀ {a : List ContribEntry}, (∀ p ∈ a, 0 < p.2) → ∀ (b : List ContribEntry),
      countStreakRev today (a ++ b) = a.length + countStreakRev today b
  | [], _, b => by simp
  | (d, c) :: t, ha, b => by
    have hc : 0 < c := ha (d, c) (by simp)
    have hc0 : ¬ c = 0 := by omega
    have h1 : ¬(d = today ∧ c = 0) := fun hx => hc0 hx.2
    have ih := countStreakRev_append today (a := t)
      (fun q hq => ha q (by simp [hq])) b
    show countStreakRev today ((d, c) :: (t ++ b)) =
      ((d, c) :: t).length + countStreakRev today b
    simp only [countStreakRev, if_neg h1, if_neg hc0, List.length_cons]
    rw [ih]
    omega

theorem countStreakRev_all_pos {today : Nat} {l : List ContribEntry}
    (h : ∀ p ∈ l, 0 < p.2) : countStreakRev today l = l.length := by
  simpa using countStreakRev_append today h []

theorem foldl_longestStep_shift :
    ∀ (l : ContribList) (c m : Nat),
      (l.foldl longestStep (c, m)).1 = (l.foldl longestStep (c, 0)).1 ∧
      (l.foldl longestStep (c, m)).2 = max m (l.foldl longestStep (c, 0)).2
  | [], c, m => by simp
  | p :: t, c, m => by
    simp only [List.foldl_cons, longestStep]
    set n := if 0 < p.2 then c + 1 else 0 with hn
    have ih1 := foldl_longestStep_shift t n (max m n)
    have ih2 := foldl_longestStep_shift t n (max 0 n)
    constructor
    · rw [ih1.1, ih2.1]
    · rw [ih1.2, ih2.2, Nat.zero_max, Nat.max_assoc]

theorem foldl_longestStep_snd_mono :
    ∀ (l : ContribList) (a : Nat × Nat), a.2 ≤ (l.foldl longestStep a).2
  | [], _ => le_refl _
  | p :: t, a => by
    have h1 : a.2 ≤ (longestStep a p).2 := le_max_left _ _
    exact le_trans h1 (foldl_longestStep_snd_mono t _)

theorem foldl_longestStep_fst_le_snd :
    ∀ (l : ContribList) (a : Nat × Nat), a.1 ≤ a.2 →
      (l.foldl longestStep a).1 ≤ (l.foldl longestStep a).2
  | [], _, h => h
  | p :: t, a, _ => by
    exact foldl_longestStep_fst_le_snd t (longestStep a p) (le_max_right _ _)

theorem foldl_longestStep_fst_eq {l : ContribList} (h0 : ∀ p ∈ l, 0 ≤ p.2) :
    (l.foldl longestStep (0, 0)).1 = leadingRun l.reverse := by
  induction l using List.reverseRecOn with
  | nil => rfl
  | append_singleton l' x ih =>
    have hx : 0 ≤ x.2 := h0 x (by simp)
    have ih' := ih (fun p hp => h0 p (by simp [hp]))
    rw [List.foldl_append, List.reverse_append]
    simp only [List.foldl_cons, List.foldl_nil, List.reverse_singleton,
      List.singleton_append, leadingRun]
    by_cases hz : x.2 = 0
    · simp [longestStep, hz]
    · have hpos : 0 < x.2 := by omega
      simp [longestStep, hpos, hz, ih', -Prod.mk_zero_zero]

theorem leadingRun_reverse_le_longest {l : ContribList} (h0 : ∀ p ∈ l, 0 ≤ p.2) :
    leadingRun l.reverse ≤ calculateLongestStreak l := by
  rw [← foldl_longestStep_fst_eq h0]
  exact foldl_longestStep_fst_le_snd l (0, 0) (le_refl 0)

theorem longest_prefix_le (l l2 : ContribList) :
    calculateLongestStreak l ≤ calculateLongestStreak (l ++ l2) := by
  unfold calculateLongestStreak
  rw [List.foldl_append]
  exact foldl_longestStep_snd_mono l2 _

theorem longest_break (l1 l2 : ContribList) (d : Nat) :
    calculateLongestStreak (l1 ++ (d, 0) :: l2) =
      max (calculateLongestStreak l1) (calculateLongestStreak l2) := by
  unfold calculateLongestStreak
  rw [List.foldl_append, List.foldl_cons]
  have hstep : longestStep (l1.foldl longestStep (0, 0)) (d, 0) =
      (0, (l1.foldl longestStep (0, 0)).2) := by
    simp [longestStep]
  rw [hstep]
  exact (foldl_longestStep_shift l2 0 _).2

theorem foldl_longestStep_all_pos :
    ∀ (l : ContribList) (c m : Nat), c ≤ m → (∀ p ∈ l, 0 < p.2) →
      l.foldl longestStep (c, m) = (c + l.length, max m (c + l.length))
  | [], c, m, hcm, _ => by simp [Nat.max_eq_left hcm]
  | p :: t, c, m, hcm, hp => by
    have hppos : 0 < p.2 := hp p (by simp)
    have hstep : longestStep (c, m) p = (c + 1, max m (c + 1)) := by
      simp [longestStep, hppos]
    rw [List.foldl_cons, hstep,
      foldl_longestStep_all_pos t (c + 1) (max m (c + 1)) (le_max_right _ _)
        (fun q hq => hp q (by simp [hq]))]
    have h1 : c + 1 + t.length = c + (t.length + 1) := by omega
    have h2 : c + 1 ≤ c + (t.length + 1) := by omega
    rw [h1, Nat.max_assoc, Nat.max_eq_right h2]
    simp [List.length_cons]

theorem longest_all_pos {l : ContribList} (h : ∀ p ∈ l, 0 < p.2) :
    calculateLongestStreak l = l.length := by
  unfold calculateLongestStreak
  rw [foldl_longestStep_all_pos l 0 0 (le_refl 0) h]
  simp

theorem foldl_longestStep_zeros :
    ∀ (z : ContribList), (∀ p ∈ z, p.2 = 0) → ∀ (l : ContribList) (m : Nat),
      (z ++ l).foldl longestStep (0, m) = l.foldl longestStep (0, m)
  | [], _, _, _ => rfl
  | q :: t, hz, l, m => by
    have hq : q.2 = 0 := hz q (by simp)
    have hstep : longestStep (0, m) q = (0, m) := by simp [longestStep, hq]
    simp only [List.cons_append, List.foldl_cons, hstep]
    exact foldl_longestStep_zeros t (fun p hp => hz p (by simp [hp])) l m

theorem foldl_add_shift :
    ∀ (l : ContribList) (a : Int),
      l.foldl (fun s p => s + p.2) a = a + l.foldl (fun s p => s + p.2) 0
  | [], a => by simp
  | p :: t, a => by
    simp only [List.foldl_cons]
    rw [foldl_add_shift t (a + p.2), foldl_add_shift t (0 + p.2)]
    ring

theorem totalCommits_cons (p : ContribEntry) (t : ContribList) :
    calculateTotalCommits (p :: t) = p.2 + calculateTotalCommits t := by
  unfold calculateTotalCommits
  simp only [List.foldl_cons]
  rw [foldl_add_shift t (0 + p.2)]
  ring

theorem totalCommits_append (a b : ContribList) :
    calculateTotalCommits (a ++ b) =
      calculateTotalCommits a + calculateTotalCommits b := by
  induction a with
  | nil => simp [calculateTotalCommits]
  | cons p t ih =>
    simp only [List.cons_append, totalCommits_cons, ih]
    ring

theorem totalCommits_nonneg :
    ∀ {l : ContribList}, (∀ p ∈ l, 0 ≤ p.2) → 0 ≤ calculateTotalCommits l
  | [], _ => le_refl 0
  | p :: t, h => by
    rw [totalCommits_cons]
    have h1 := h p (by simp)
    have h2 := totalCommits_nonneg (l := t) (fun q hq => h q (by simp [hq]))
    omega

theorem totalCommits_zero_iff :
    ∀ {l : ContribList}, (∀ p ∈ l, 0 ≤ p.2) →
      (calculateTotalCommits l = 0 ↔ ∀ p ∈ l, p.2 = 0)
  | [], _ => by simp [calculateTotalCommits]
  | p :: t, h => by
    rw [totalCommits_cons]
    have h1 := h p (by simp)
    have ht : ∀ q ∈ t, 0 ≤ q.2 := fun q hq => h q (by simp [hq])
    have h2 := totalCommits_nonneg ht
    have ih := totalCommits_zero_iff ht
    constructor
    · intro hsum q hq
      have hp0 : p.2 = 0 := by omega
      have ht0 : calculateTotalCommits t = 0 := by omega
      rcases List.mem_cons.mp hq with rfl | hq'
      · exact hp0
      · exact ih.mp ht0 q hq'
    · intro hall
      have hp0 := hall p (by simp)
      have ht0 : calculateTotalCommits t = 0 :=
        ih.mpr (fun q hq => hall q (by simp [hq]))
      omega

theorem find?_pos_spec :
    ∀ {r : List ContribEntry}, r.Pairwise (fun a b => b.1 < a.1) →
      ∀ {q : ContribEntry}, r.find? (fun p => decide (0 < p.2)) = some q →
        0 < q.2 ∧ q ∈ r ∧ ∀ p ∈ r, 0 < p.2 → p.1 ≤ q.1
  | [], _, q, h => by simp at h
  | x :: t, hp, q, h => by
    rw [List.find?_cons] at h
    by_cases hx : 0 < x.2
    · have hxb : (decide (0 < x.2)) = true := decide_eq_true hx
      rw [hxb] at h
      obtain rfl : x = q := by
        have h' : some x = some q := h
        injection h'
      refine ⟨hx, by simp, ?_⟩
      intro p hpm _
      rcases List.mem_cons.mp hpm with rfl | hpt
      · exact le_refl _
      · exact le_of_lt ((List.pairwise_cons.mp hp).1 p hpt)
    · have hxb : (decide (0 < x.2)) = false := by simp [hx]
      rw [hxb] at h
      have h' : t.find? (fun p => decide (0 < p.2)) = some q := h
      have hpt := (List.pairwise_cons.mp hp).2
      obtain ⟨h1, h2, h3⟩ := find?_pos_spec hpt h'
      refine ⟨h1, by simp [h2], ?_⟩
      intro p hpm hppos
      rcases List.mem_cons.mp hpm with rfl | hpt'
      · exact absurd hppos hx
      · exact h3 p hpt' hppos

theorem findLastCommitDate_none_iff {dates : ContribList} :
    findLastCommitDate dates = none ↔ ∀ p ∈ dates, ¬ 0 < p.2 := by
  simp [findLastCommitDate, List.find?_eq_none, List.mem_reverse]

theorem findLastCommitDate_some_spec {dates : ContribList} (hs : sortedKeys dates)
    {d : Nat} (h : findLastCommitDate dates = some d) :
    (∃ c, (d, c) ∈ dates ∧ 0 < c) ∧ ∀ p ∈ dates, 0 < p.2 → p.1 ≤ d := by
  unfold findLastCommitDate at h
  rw [Option.map_eq_some'] at h
  obtain ⟨q, hq, hqd⟩ := h
  have hrev : (dates.reverse).Pairwise (fun a b => b.1 < a.1) := by
    rw [List.pairwise_reverse]
    exact hs
  obtain ⟨hpos, hmem, hmax⟩ := find?_pos_spec hrev hq
  subst hqd
  refine ⟨⟨q.2, ?_, hpos⟩, ?_⟩
  · simpa using List.mem_reverse.mp hmem
  · intro p hpm hppos
    exact hmax p (List.mem_reverse.mpr hpm) hppos

theorem isTodayZeroLast_false_of_pos {l : ContribList}
    (h : ∀ p ∈ l, 0 < p.2) (t : Nat) : isTodayZeroLast l t = false := by
  unfold isTodayZeroLast
  cases hq : l.getLast? with
  | none => rfl
  | some q =>
    obtain ⟨d, c⟩ := q
    have hm : (d, c) ∈ l := List.mem_of_mem_getLast? (Option.mem_def.mpr hq)
    have hcpos := h (d, c) hm
    have hc : c ≠ 0 := by omega
    simp [hc]

theorem isTodayZeroLast_append (l : ContribList) {r : ContribList} (hr : r ≠ [])
    (t : Nat) : isTodayZeroLast (l ++ r) t = isTodayZeroLast r t := by
  unfold isTodayZeroLast
  rw [List.getLast?_append_of_ne_nil l hr]

theorem calculateStreaks_currentStreak (c : ContribList) (t : Nat) :
    (calculateStreaks c t).currentStreak =
      calculateCurrentStreak (sortEntries c) t (t - 1) := rfl

theorem calculateStreaks_longestStreak (c : ContribList) (t : Nat) :
    (calculateStreaks c t).longestStreak = calculateLongestStreak (sortEntries c) := rfl

theorem calculateStreaks_totalCommits (c : ContribList) (t : Nat) :
    (calculateStreaks c t).totalCommits = calculateTotalCommits c := rfl

theorem calculateStreaks_lastCommitDate (c : ContribList) (t : Nat) :
    (calculateStreaks c t).lastCommitDate = findLastCommitDate (sortEntries c) := rfl

theorem collect_go_filter (today : Nat) :
    ∀ (days : List ContribEntry) (m : ContribList),
      days.foldl (fun m p => if p.1 ≤ today then insertContribution m p.1 p.2 else m) m =
        (removeFuture days today).foldl
          (fun m p => if p.1 ≤ today then insertContribution m p.1 p.2 else m) m
  | [], _ => rfl
  | p :: t, m => by
    by_cases hp : p.1 ≤ today
    · have hfil : removeFuture (p :: t) today = p :: removeFuture t today := by
        simp [removeFuture, List.filter_cons, hp]
      rw [hfil, List.foldl_cons, List.foldl_cons, if_pos hp]
      exact collect_go_filter today t _
    · have hfil : removeFuture (p :: t) today = removeFuture t today := by
        simp [removeFuture, List.filter_cons, hp]
      rw [hfil, List.foldl_cons, if_neg hp]
      exact collect_go_filter today t m

theorem insertContribution_keys_bounded {m : ContribList} {today d : Nat} {c : Int}
    (hm : ∀ p ∈ m, p.1 ≤ today) (hd : d ≤ today) :
    ∀ p ∈ insertContribution m d c, p.1 ≤ today := by
  intro p hp
  unfold insertContribution at hp
  by_cases hany : m.any (fun r => r.1 == d) = true
  · rw [if_pos hany] at hp
    obtain ⟨r, hr, hrp⟩ := List.mem_map.mp hp
    by_cases hrq : (r.1 == d) = true
    · rw [if_pos hrq] at hrp
      rw [← hrp]
      exact hd
    · rw [if_neg hrq] at hrp
      rw [← hrp]
      exact hm r hr
  · rw [if_neg hany] at hp
    rcases List.mem_append.mp hp with h | h
    · exact hm p h
    · have : p = (d, c) := by simpa using h
      rw [this]
      exact hd

theorem collect_go_bounded (today : Nat) :
    ∀ (days : List ContribEntry) (m : ContribList), (∀ p ∈ m, p.1 ≤ today) →
      ∀ p ∈ days.foldl
          (fun m p => if p.1 ≤ today then insertContribution m p.1 p.2 else m) m,
        p.1 ≤ today
  | [], _, hm => hm
  | q :: t, m, hm => by
    by_cases hq : q.1 ≤ today
    · simp only [List.foldl_cons, if_pos hq]
      exact collect_go_bounded today t _ (insertContribution_keys_bounded hm hq)
    · simp only [List.foldl_cons, if_neg hq]
      exact collect_go_bounded today t m hm

/-! ## Claims -/

/-- C5: on the empty contribution map the streak engine returns zero current
streak, zero longest streak, zero total commits and an absent last commit
date; being a total Lean function, the embedded engine has no exception
path on any well-typed input. -/
theorem C5_empty_map (today : Nat) :
    calculateStreaks [] today = ⟨0, 0, 0, none⟩ := rfl

/-- C1, counterexample: the claim says a calendar day missing from the map
breaks a streak exactly as an explicit zero-count entry does.  In the code
it does not: with positive entries on days 5 and 7 and day 6 absent
(today = 7), both streaks count 2 across the missing day 6, whereas with an
explicit zero entry on day 6 both streaks are 1. -/
theorem C1_counterexample :
    (calculateStreaks [(5, 1), (7, 1)] 7).currentStreak = 2 ∧
    (calculateStreaks [(5, 1), (7, 1)] 7).longestStreak = 2 ∧
    (calculateStreaks [(5, 1), (6, 0), (7, 1)] 7).currentStreak = 1 ∧
    (calculateStreaks [(5, 1), (6, 0), (7, 1)] 7).longestStreak = 1 := by
  decide

/-- C1, amended: an explicit zero-count entry breaks a run of positive
entries for both streak computations, while a missing calendar day does
not — the engine scans sorted entries without checking day adjacency, so
removing the zero entry merges the two runs into one of the combined
length; a missing day contributes exactly zero to `totalCommits` (deleting
a zero-count entry leaves the total unchanged). -/
theorem C1_amended (l1 l2 : ContribList) (d today ytd : Nat)
    (hpos : ∀ p ∈ l1 ++ l2, 0 < p.2) (hd : d ≠ today) :
    calculateCurrentStreak (l1 ++ (d, 0) :: l2) today ytd = l2.length ∧
    calculateLongestStreak (l1 ++ (d, 0) :: l2) = max l1.length l2.length ∧
    calculateCurrentStreak (l1 ++ l2) today ytd = l1.length + l2.length ∧
    calculateTotalCommits (l1 ++ (d, 0) :: l2) = calculateTotalCommits (l1 ++ l2) := by
  have hpos1 : ∀ p ∈ l1, 0 < p.2 := fun p hp => hpos p (by simp [hp])
  have hpos2 : ∀ p ∈ l2, 0 < p.2 := fun p hp => hpos p (by simp [hp])
  refine ⟨?_, ?_, ?_, ?_⟩
  · unfold calculateCurrentStreak
    have hedge : isTodayZeroLast (l1 ++ (d, 0) :: l2) today = false := by
      cases hl2 : l2 with
      | nil =>
        simp [isTodayZeroLast, List.getLast?_concat, hd]
      | cons q t =>
        have hsplit : l1 ++ (d, 0) :: q :: t = (l1 ++ [(d, 0)]) ++ (q :: t) := by
          simp
        rw [hsplit, isTodayZeroLast_append _ (by simp)]
        exact isTodayZeroLast_false_of_pos (by rw [← hl2]; exact hpos2) today
    rw [hedge]
    simp only [Bool.false_and, Bool.false_eq_true, if_false]
    have hrev : (l1 ++ (d, 0) :: l2).reverse =
        l2.reverse ++ ((d, 0) :: l1.reverse) := by
      simp
    rw [hrev, countStreakRev_append today (fun p hp => hpos2 p (List.mem_reverse.mp hp))]
    have hzero : countStreakRev today ((d, 0) :: l1.reverse) = 0 := by
      simp only [countStreakRev]
      rw [if_neg (fun hx => hd hx.1)]
      simp
    rw [hzero]
    simp
  · rw [longest_break, longest_all_pos hpos1, longest_all_pos hpos2]
  · unfold calculateCurrentStreak
    rw [isTodayZeroLast_false_of_pos hpos]
    simp only [Bool.false_and, Bool.false_eq_true, if_false]
    rw [countStreakRev_all_pos (fun p hp => hpos p (List.mem_reverse.mp hp))]
    simp only [List.length_reverse, List.length_append]
  · rw [totalCommits_append, totalCommits_append, totalCommits_cons]
    simp

/-- C1, witness for the amended theorem at a concrete gap instance. -/
theorem C1_amended_witness :
    (∀ p ∈ ([(1, 2)] : ContribList) ++ [(7, 3)], 0 < p.2) ∧ (4 : Nat) ≠ 7 ∧
    (calculateCurrentStreak ([(1, 2)] ++ (4, 0) :: [(7, 3)]) 7 6 = 1 ∧
     calculateLongestStreak ([(1, 2)] ++ (4, 0) :: [(7, 3)]) = max 1 1 ∧
     calculateCurrentStreak ([(1, 2)] ++ [(7, 3)]) 7 6 = 1 + 1 ∧
     calculateTotalCommits ([(1, 2)] ++ (4, 0) :: [(7, 3)]) =
       calculateTotalCommits ([(1, 2)] ++ [(7, 3)])) :=
  ⟨by decide, by decide, C1_amended [(1, 2)] [(7, 3)] 4 7 6 (by decide) (by decide)⟩

/-- C3, counterexample: the claim says entries dated strictly after today
never affect the computed stats of `calculateStreaks`.  The engine itself
does not filter: a single future entry `(12, 5)` with today = 10 yields
different stats than the future-stripped map. -/
theorem C3_counterexample :
    calculateStreaks [(12, 5)] 10 ≠ calculateStreaks (removeFuture [(12, 5)] 10) 10 := by
  decide

/-- C3, amended: the future-date filtering lives in `collectContributions`,
not in `calculateStreaks`: the map assembled by the collector is unchanged
when future-dated raw entries are removed first, hence the pipeline stats
are unaffected by future-dated entries, and every date in the assembled map
is at most today. -/
theorem C3_amended (days : List ContribEntry) (today : Nat) :
    collectContributions days today =
      collectContributions (removeFuture days today) today ∧
    calculateStreaks (collectContributions days today) today =
      calculateStreaks (collectContributions (removeFuture days today) today) today ∧
    ∀ p ∈ collectContributions days today, p.1 ≤ today := by
  have h1 : collectContributions days today =
      collectContributions (removeFuture days today) today :=
    collect_go_filter today days []
  exact ⟨h1, by rw [h1], collect_go_bounded today days [] (by simp)⟩

/-- C10: on a map whose entries all have positive counts and none dated
after today, both `currentStreak` and `longestStreak` equal the number of
entries, whether or not the entry dates are consecutive calendar days. -/
theorem C10_all_positive (contributions : ContribList) (today : Nat)
    (hs : sortedKeys contributions)
    (hpos : ∀ p ∈ contributions, 0 < p.2)
    (hle : ∀ p ∈ contributions, p.1 ≤ today) :
    (calculateStreaks contributions today).currentStreak = contributions.length ∧
    (calculateStreaks contributions today).longestStreak = contributions.length := by
  have hsort := sortEntries_eq_self hs
  rw [calculateStreaks_currentStreak, calculateStreaks_longestStreak, hsort]
  constructor
  · unfold calculateCurrentStreak
    rw [isTodayZeroLast_false_of_pos hpos]
    simp only [Bool.false_and, Bool.false_eq_true, if_false]
    rw [countStreakRev_all_pos (fun p hp => hpos p (List.mem_reverse.mp hp))]
    simp
  · exact longest_all_pos hpos

/-- C10, witness: two positive entries on the non-consecutive days 5 and 9
(today = 10) give both streaks equal to 2. -/
theorem C10_witness :
    sortedKeys [((5 : Nat), (1 : Int)), (9, 2)] ∧
    (∀ p ∈ ([(5, 1), (9, 2)] : ContribList), 0 < p.2) ∧
    (∀ p ∈ ([(5, 1), (9, 2)] : ContribList), p.1 ≤ 10) ∧
    ((calculateStreaks [(5, 1), (9, 2)] 10).currentStreak = 2 ∧
     (calculateStreaks [(5, 1), (9, 2)] 10).longestStreak = 2) :=
  ⟨by decide, by decide, by decide,
    C10_all_positive [(5, 1), (9, 2)] 10 (by decide) (by decide) (by decide)⟩

/-- C2, counterexample: the claim quantifies over every contribution map;
with a future-dated entry the zero-count `today` entry sits in the middle of
the sorted list, the backward scan skips it and joins the two runs, and
`currentStreak` (2) exceeds `longestStreak` (1) for the map
`{9 ↦ 1, 10 ↦ 0, 12 ↦ 1}` with today = 10. -/
theorem C2_counterexample :
    (calculateStreaks [(9, 1), (10, 0), (12, 1)] 10).longestStreak <
      (calculateStreaks [(9, 1), (10, 0), (12, 1)] 10).currentStreak := by
  decide

/-- C2, amended: for every contribution map whose counts are non-negative
and whose entries are not dated after today, the stats returned by
`calculateStreaks` satisfy `currentStreak ≤ longestStreak`. -/
theorem C2_amended (contributions : ContribList) (today : Nat)
    (hs : sortedKeys contributions)
    (h0 : ∀ p ∈ contributions, 0 ≤ p.2)
    (hle : ∀ p ∈ contributions, p.1 ≤ today) :
    (calculateStreaks contributions today).currentStreak ≤
      (calculateStreaks contributions today).longestStreak := by
  rw [calculateStreaks_currentStreak, calculateStreaks_longestStreak,
    sortEntries_eq_self hs]
  unfold calculateCurrentStreak
  by_cases hedge : (isTodayZeroLast contributions today &&
      !hasPositiveOn contributions (today - 1)) = true
  · rw [if_pos hedge]
    exact Nat.zero_le _
  · rw [if_neg hedge]
    rcases hrev : contributions.reverse with _ | ⟨x, r⟩
    · exact Nat.zero_le _
    · have hctr : contributions = r.reverse ++ [x] := by
        have h := congrArg List.reverse hrev
        simpa using h
      have hpair : (x :: r).Pairwise (fun a b : ContribEntry => b.1 < a.1) := by
        rw [← hrev, List.pairwise_reverse]
        exact hs
      have hxr : ∀ p ∈ r, p.1 < x.1 := (List.pairwise_cons.mp hpair).1
      have hxle : x.1 ≤ today := by
        apply hle
        rw [hctr]
        simp
      have hnr : ∀ p ∈ r, ¬(p.1 = today ∧ p.2 = 0) := by
        intro p hp hcon
        have := hxr p hp
        omega
      have h0r : ∀ p ∈ r.reverse, 0 ≤ p.2 := by
        intro p hp
        apply h0
        rw [hctr]
        exact List.mem_append.mpr (Or.inl hp)
      obtain ⟨xd, xc⟩ := x
      by_cases hx0 : xd = today ∧ xc = 0
      · simp only [countStreakRev, if_pos hx0]
        rw [countStreakRev_eq_leadingRun hnr]
        calc leadingRun r = leadingRun (r.reverse).reverse := by
              rw [List.reverse_reverse]
          _ ≤ calculateLongestStreak r.reverse := leadingRun_reverse_le_longest h0r
          _ ≤ calculateLongestStreak (r.reverse ++ [(xd, xc)]) := longest_prefix_le _ _
          _ = calculateLongestStreak contributions := by rw [← hctr]
      · have hall : ∀ p ∈ (xd, xc) :: r, ¬(p.1 = today ∧ p.2 = 0) := by
          intro p hp
          rcases List.mem_cons.mp hp with rfl | hp'
          · exact hx0
          · exact hnr p hp'
        rw [countStreakRev_eq_leadingRun hall, ← hrev]
        exact leadingRun_reverse_le_longest h0

/-- C2, witness for the amended theorem: a map with an explicit zero day
followed by two active days, today = 6. -/
theorem C2_amended_witness :
    sortedKeys [((4 : Nat), (0 : Int)), (5, 2), (6, 1)] ∧
    (∀ p ∈ ([(4, 0), (5, 2), (6, 1)] : ContribList), 0 ≤ p.2) ∧
    (∀ p ∈ ([(4, 0), (5, 2), (6, 1)] : ContribList), p.1 ≤ 6) ∧
    (calculateStreaks [(4, 0), (5, 2), (6, 1)] 6).currentStreak ≤
      (calculateStreaks [(4, 0), (5, 2), (6, 1)] 6).longestStreak :=
  ⟨by decide, by decide, by decide,
    C2_amended [(4, 0), (5, 2), (6, 1)] 6 (by decide) (by decide) (by decide)⟩

/-- C4, counterexample: for the map `{1 ↦ 1, 3 ↦ 1, 4 ↦ 0}` with today = 4
(today present with count 0, yesterday = 3 positive) the run of consecutive
positive-count calendar days ending at yesterday has length 1 (day 2 is
missing), yet the code returns `currentStreak = 2`, counting across the
missing day. -/
theorem C4_counterexample :
    specConsecutiveRunEndingAt [(1, 1), (3, 1), (4, 0)] 3 = 1 ∧
    hasPositiveOn [(1, 1), (3, 1), (4, 0)] 3 = true ∧
    (calculateStreaks [(1, 1), (3, 1), (4, 0)] 4).currentStreak = 2 := by
  decide

/-- C4, amended: for a sorted map whose last entry is `(today, 0)` (no
future entries) and today ≥ 1: if some entry on yesterday has positive
count, `currentStreak` equals the length of the trailing block of
nonzero-count entries before today's entry (a run of entries ending at
yesterday's entry, not necessarily consecutive days); otherwise
`currentStreak` is 0. -/
theorem C4_amended (l : ContribList) (today : Nat)
    (hs : sortedKeys (l ++ [(today, 0)])) (h1 : 1 ≤ today) :
    (calculateStreaks (l ++ [(today, 0)]) today).currentStreak =
      if hasPositiveOn l (today - 1) then leadingRun l.reverse else 0 := by
  rw [calculateStreaks_currentStreak, sortEntries_eq_self hs]
  unfold calculateCurrentStreak
  have hlt : ∀ p ∈ l, p.1 < today := by
    have hpa := List.pairwise_append.mp hs
    intro p hp
    exact hpa.2.2 p hp (today, 0) (by simp)
  have hlast : isTodayZeroLast (l ++ [(today, 0)]) today = true := by
    simp [isTodayZeroLast, List.getLast?_concat]
  have hne : today ≠ today - 1 := by omega
  have hhp : hasPositiveOn (l ++ [(today, 0)]) (today - 1) =
      hasPositiveOn l (today - 1) := by
    unfold hasPositiveOn
    rw [List.any_append]
    simp [hne]
  rw [hlast, hhp]
  by_cases hy : hasPositiveOn l (today - 1) = true
  · simp only [hy, Bool.not_true, Bool.and_false, Bool.false_eq_true, if_false,
      if_true]
    have hrev2 : (l ++ [(today, 0)]).reverse = (today, 0) :: l.reverse := by simp
    rw [hrev2]
    simp only [countStreakRev, if_pos (⟨rfl, rfl⟩ : today = today ∧ (0 : Int) = 0)]
    exact countStreakRev_eq_leadingRun (fun p hp hcon => by
      have := hlt p (List.mem_reverse.mp hp)
      omega)
  · have hyb : hasPositiveOn l (today - 1) = false := by
      cases hb : hasPositiveOn l (today - 1)
      · rfl
      · exact absurd hb hy
    simp [hyb]

/-- C4, witness for the amended theorem: entries `{2 ↦ 0, 3 ↦ 1, 4 ↦ 0}`
with today = 4 give `currentStreak = 1`, the trailing run ending at
yesterday's entry. -/
theorem C4_amended_witness :
    sortedKeys ([(2, 0), (3, 1)] ++ [((4 : Nat), (0 : Int))]) ∧ (1 : Nat) ≤ 4 ∧
    (calculateStreaks ([(2, 0), (3, 1)] ++ [(4, 0)]) 4).currentStreak =
      (if hasPositiveOn [(2, 0), (3, 1)] (4 - 1) then
        leadingRun ([(2, 0), (3, 1)] : ContribList).reverse
      else 0) :=
  ⟨by decide, by decide, C4_amended [(2, 0), (3, 1)] 4 (by decide) (by decide)⟩

/-- C6: for a history made of a run of consecutive positive-count days,
one or more explicit zero-count days, and a trailing run of consecutive
positive-count days ending at today, `currentStreak` is the trailing run's
length and `longestStreak` the maximum of the two run lengths — so a longer
historical run determines `longestStreak` while `currentStreak` reflects
only the trailing run (e.g. 5 then 2 gives `currentStreak = 2`,
`longestStreak = 5`, shown in the witness). -/
theorem C6_trailing_vs_historical (l1 z l2 : ContribList) (today : Nat)
    (hs : sortedKeys (l1 ++ z ++ l2))
    (h1 : ∀ p ∈ l1, 0 < p.2) (hz : ∀ p ∈ z, p.2 = 0) (h2 : ∀ p ∈ l2, 0 < p.2)
    (hzne : z ≠ []) (h2ne : l2 ≠ [])
    (hc1 : consecutiveDays l1 = true) (hc2 : consecutiveDays l2 = true)
    (hend : l2.getLast?.map Prod.fst = some today) :
    (calculateStreaks (l1 ++ z ++ l2) today).currentStreak = l2.length ∧
    (calculateStreaks (l1 ++ z ++ l2) today).longestStreak =
      max l1.length l2.length := by
  rw [calculateStreaks_currentStreak, calculateStreaks_longestStreak,
    sortEntries_eq_self hs]
  constructor
  · unfold calculateCurrentStreak
    have hedge : isTodayZeroLast (l1 ++ z ++ l2) today = false := by
      rw [isTodayZeroLast_append _ h2ne]
      exact isTodayZeroLast_false_of_pos h2 today
    rw [hedge]
    simp only [Bool.false_and, Bool.false_eq_true, if_false]
    have hrev : ((l1 ++ z) ++ l2).reverse = l2.reverse ++ (z.reverse ++ l1.reverse) := by
      simp
    rw [hrev, countStreakRev_append today (fun p hp => h2 p (List.mem_reverse.mp hp))]
    obtain ⟨zq, zr, hzrev⟩ : ∃ zq zr, z.reverse = zq :: zr := by
      cases hzr : z.reverse with
      | nil => exact absurd (by simpa using hzr) hzne
      | cons a b => exact ⟨a, b, rfl⟩
    have hzq_mem : zq ∈ z := by
      have hmm : zq ∈ z.reverse := by
        rw [hzrev]
        simp
      exact List.mem_reverse.mp hmm
    have hzq0 : zq.2 = 0 := hz zq hzq_mem
    obtain ⟨ql, hql, hqlt⟩ : ∃ ql, l2.getLast? = some ql ∧ ql.1 = today := by
      cases hgl : l2.getLast? with
      | none =>
        rw [hgl] at hend
        simp at hend
      | some ql =>
        rw [hgl] at hend
        simp at hend
        exact ⟨ql, rfl, hend⟩
    have hql_mem : ql ∈ l2 := List.mem_of_mem_getLast? (Option.mem_def.mpr hql)
    have hzq_lt : zq.1 < ql.1 := by
      have hpa := List.pairwise_append.mp hs
      exact hpa.2.2 zq (List.mem_append.mpr (Or.inr hzq_mem)) ql hql_mem
    have hzq_ne : zq.1 ≠ today := by omega
    have hcz : countStreakRev today (z.reverse ++ l1.reverse) = 0 := by
      rw [hzrev]
      show countStreakRev today (zq :: (zr ++ l1.reverse)) = 0
      obtain ⟨zd, zc⟩ := zq
      simp only at hzq0 hzq_ne
      simp only [countStreakRev]
      rw [if_neg (fun hx => hzq_ne hx.1), if_pos hzq0]
    rw [hcz]
    simp
  · obtain ⟨zq, zr, hzc⟩ : ∃ zq zr, z = zq :: zr := by
      cases z with
      | nil => exact absurd rfl hzne
      | cons a b => exact ⟨a, b, rfl⟩
    have hzq0 : zq.2 = 0 := hz zq (by rw [hzc]; simp)
    have hzqeta : zq = (zq.1, (0 : Int)) := by
      rw [← hzq0]
    have hsplit : (l1 ++ z) ++ l2 = l1 ++ ((zq.1, (0 : Int)) :: (zr ++ l2)) := by
      rw [hzc, ← hzqeta]
      simp
    rw [hsplit, longest_break]
    have hzr : ∀ p ∈ zr, p.2 = 0 := fun p hp => hz p (by rw [hzc]; simp [hp])
    have hzz : calculateLongestStreak (zr ++ l2) = calculateLongestStreak l2 := by
      unfold calculateLongestStreak
      rw [foldl_longestStep_zeros zr hzr l2 0]
    rw [hzz, longest_all_pos h1, longest_all_pos h2]

/-- C6, witness: 5 consecutive positive days (25–29), three explicit zero
days (30–32), then 2 consecutive positive days (33–34) ending at today = 34
give `currentStreak = 2` and `longestStreak = 5`. -/
theorem C6_witness :
    sortedKeys ([(25, 1), (26, 1), (27, 1), (28, 1), (29, 1)] ++
      [(30, 0), (31, 0), (32, 0)] ++ [((33 : Nat), (1 : Int)), (34, 2)]) ∧
    (calculateStreaks ([(25, 1), (26, 1), (27, 1), (28, 1), (29, 1)] ++
        [(30, 0), (31, 0), (32, 0)] ++ [(33, 1), (34, 2)]) 34).currentStreak = 2 ∧
    (calculateStreaks ([(25, 1), (26, 1), (27, 1), (28, 1), (29, 1)] ++
        [(30, 0), (31, 0), (32, 0)] ++ [(33, 1), (34, 2)]) 34).longestStreak = 5 := by
  refine ⟨by decide, ?_⟩
  have h := C6_trailing_vs_historical
    [(25, 1), (26, 1), (27, 1), (28, 1), (29, 1)]
    [(30, 0), (31, 0), (32, 0)] [(33, 1), (34, 2)] 34
    (by decide) (by decide) (by decide) (by decide) (by decide) (by decide)
    (by decide) (by decide) (by decide)
  exact h

/-- C7: on a sorted map with non-negative counts and no future-dated
entries, the reported last commit date is absent exactly when
`totalCommits` is zero, and when present it is a date carrying a positive
count that is at least every other positively-counted date — the
chronologically latest active date. -/
theorem C7_last_active (contributions : ContribList) (today : Nat)
    (hs : sortedKeys contributions)
    (h0 : ∀ p ∈ contributions, 0 ≤ p.2)
    (hle : ∀ p ∈ contributions, p.1 ≤ today) :
    ((calculateStreaks contributions today).lastCommitDate = none ↔
      (calculateStreaks contributions today).totalCommits = 0) ∧
    ∀ d, (calculateStreaks contributions today).lastCommitDate = some d →
      (∃ c, (d, c) ∈ contributions ∧ 0 < c) ∧
      ∀ p ∈ contributions, 0 < p.2 → p.1 ≤ d := by
  rw [calculateStreaks_lastCommitDate, calculateStreaks_totalCommits,
    sortEntries_eq_self hs]
  constructor
  · rw [findLastCommitDate_none_iff, totalCommits_zero_iff h0]
    constructor
    · intro h p hp
      have h1 := h p hp
      have h2 := h0 p hp
      omega
    · intro h p hp
      have h1 := h p hp
      omega
  · intro d hd
    exact findLastCommitDate_some_spec hs hd

/-- C7, witness: map `{3 ↦ 0, 5 ↦ 2}` with today = 6. -/
theorem C7_witness :
    sortedKeys [((3 : Nat), (0 : Int)), (5, 2)] ∧
    (∀ p ∈ ([(3, 0), (5, 2)] : ContribList), 0 ≤ p.2) ∧
    (∀ p ∈ ([(3, 0), (5, 2)] : ContribList), p.1 ≤ 6) ∧
    (((calculateStreaks [(3, 0), (5, 2)] 6).lastCommitDate = none ↔
        (calculateStreaks [(3, 0), (5, 2)] 6).totalCommits = 0) ∧
      ∀ d, (calculateStreaks [(3, 0), (5, 2)] 6).lastCommitDate = some d →
        (∃ c, (d, c) ∈ ([(3, 0), (5, 2)] : ContribList) ∧ 0 < c) ∧
        ∀ p ∈ ([(3, 0), (5, 2)] : ContribList), 0 < p.2 → p.1 ≤ d) :=
  ⟨by decide, by decide, by decide,
    C7_last_active [(3, 0), (5, 2)] 6 (by decide) (by decide) (by decide)⟩

theorem fetchYearsGo_spec (pos : Int → Bool) (cy : Int) :
    ∀ (k : Nat) (y : Int), (y - (cy - 5)).toNat ≤ k →
      ∃ n : Nat, n ≤ k ∧
        fetchYearsGo pos cy y = (List.range (n + 1)).map (fun i : Nat => y - (i : Int)) ∧
        (∀ i : Nat, i < n → pos (y - i) = true ∧ cy - 5 < y - i) ∧
        ¬(pos (y - n) = true ∧ cy - 5 < y - n)
  | 0, y, hk => by
    have hy : ¬ (cy - 5 < y) := by omega
    rw [fetchYearsGo]
    rw [dif_neg (fun h => hy h.2)]
    refine ⟨0, le_refl 0, by simp [List.range_succ], ?_, ?_⟩
    · intro i hi
      exact absurd hi (Nat.not_lt_zero i)
    · intro hcon
      apply hy
      simpa using hcon.2
  | k + 1, y, hk => by
    rw [fetchYearsGo]
    by_cases hc : pos y = true ∧ cy - 5 < y
    · rw [dif_pos hc]
      have hk' : (y - 1 - (cy - 5)).toNat ≤ k := by omega
      obtain ⟨n, hn, hl, hcond, hstop⟩ := fetchYearsGo_spec pos cy k (y - 1) hk'
      refine ⟨n + 1, by omega, ?_, ?_, ?_⟩
      · rw [hl]
        nth_rewrite 2 [List.range_succ_eq_map]
        simp only [List.map_cons, List.map_map, Nat.cast_zero, sub_zero]
        congr 1
        apply List.map_congr_left
        intro i _
        show y - 1 - (i : Int) = y - ((Nat.succ i : Nat) : Int)
        push_cast
        ring
      · intro i hi
        cases i with
        | zero => simpa using hc
        | succ j =>
          have hj : j < n := by omega
          have hcj := hcond j hj
          have harg : y - ((j + 1 : Nat) : Int) = y - 1 - (j : Int) := by
            push_cast
            ring
          constructor
          · rw [harg]
            exact hcj.1
          · rw [harg]
            exact hcj.2
      · intro hcon
        obtain ⟨hc1, hc2⟩ := hcon
        apply hstop
        have harg : y - ((n + 1 : Nat) : Int) = y - 1 - (n : Int) := by
          push_cast
          ring
        rw [harg] at hc1 hc2
        exact ⟨hc1, hc2⟩
    · rw [dif_neg hc]
      refine ⟨0, Nat.zero_le _, by simp [List.range_succ], ?_, ?_⟩
      · intro i hi
        exact absurd hi (Nat.not_lt_zero i)
      · intro hcon
        apply hc
        simpa using hcon

/-- C8: the year-walking loop of `getCommitHistory` starts at the current
year, walks backward one year at a time (the fetched years are
`cy, cy - 1, …, cy - n`), performs at most six year-fetches (`n ≤ 5`), and
stops exactly when January 1st of the just-fetched year has zero activity
or the five-year look-back bound is reached: every non-final fetched year
satisfies the continue condition and the final one fails it. -/
theorem C8_year_loop (pos : Int → Bool) (cy : Int) :
    ∃ n : Nat, n ≤ 5 ∧
      getCommitHistoryYears pos cy = (List.range (n + 1)).map (fun i : Nat => cy - (i : Int)) ∧
      (∀ i : Nat, i < n → pos (cy - i) = true ∧ cy - 5 < cy - i) ∧
      ¬(pos (cy - n) = true ∧ cy - 5 < cy - n) :=
  fetchYearsGo_spec pos cy 5 cy (by omega)

theorem mem_THRESHOLDS_iff (u : Nat) :
    u ∈ THRESHOLDS ↔ (u = 3 ∨ u = 7 ∨ u = 14 ∨ u = 21 ∨ u = 30 ∨ u = 50 ∨
      u = 100 ∨ u = 250 ∨ u = 365 ∨ u = 500 ∨ u = 750 ∨ u = 1000) := by
  simp [THRESHOLDS]

/-- C9: the badge tier is driven by the fixed ascending threshold table
3, 7, 14, 21, 30, 50, 100, 250, 365, 500, 750, 1000; each bound is
inclusive and the highest matching bound wins: `getTier s` equals the tier
of the greatest table threshold that is at most `s` (`bestThreshold`), and
the base tier (`getTier 0`, Seedling) exactly when `s < 3`. -/
theorem C9_tier_thresholds :
    THRESHOLDS = [3, 7, 14, 21, 30, 50, 100, 250, 365, 500, 750, 1000] ∧
    ∀ s : Nat, getTier s = (bestThreshold s).elim (getTier 0) getTier ∧
      (∀ t, bestThreshold s = some t →
        t ∈ THRESHOLDS ∧ t ≤ s ∧ ∀ u ∈ THRESHOLDS, u ≤ s → u ≤ t) ∧
      (bestThreshold s = none ↔ s < 3) := by
  refine ⟨rfl, fun s => ?_⟩
  simp only [bestThreshold, THRESHOLDS, List.foldl]
  by_cases h1000 : 1000 ≤ s
  · rw [if_pos h1000]
    refine ⟨?_, ?_, ?_⟩
    · simp [getTier, Option.elim, h1000]
    · intro t ht
      obtain rfl : (1000 : Nat) = t := Option.some.inj ht
      refine ⟨by decide, h1000, ?_⟩
      intro u hu hus
      rcases (mem_THRESHOLDS_iff u).mp hu with rfl | rfl | rfl | rfl | rfl | rfl | rfl | rfl | rfl | rfl | rfl | rfl <;> omega
    · constructor
      · intro hcon
        exact Option.noConfusion hcon
      · intro hlt
        exact absurd hlt (by omega)
  · rw [if_neg h1000]
    by_cases h750 : 750 ≤ s
    · rw [if_pos h750]
      refine ⟨?_, ?_, ?_⟩
      · simp [getTier, Option.elim, h1000, h750]
      · intro t ht
        obtain rfl : (750 : Nat) = t := Option.some.inj ht
        refine ⟨by decide, h750, ?_⟩
        intro u hu hus
        rcases (mem_THRESHOLDS_iff u).mp hu with rfl | rfl | rfl | rfl | rfl | rfl | rfl | rfl | rfl | rfl | rfl | rfl <;> omega
      · constructor
        · intro hcon
          exact Option.noConfusion hcon
        · intro hlt
          exact absurd hlt (by omega)
    · rw [if_neg h750]
      by_cases h500 : 500 ≤ s
      · rw [if_pos h500]
        refine ⟨?_, ?_, ?_⟩
        · simp [getTier, Option.elim, h1000, h750, h500]
        · intro t ht
          obtain rfl : (500 : Nat) = t := Option.some.inj ht
          refine ⟨by decide, h500, ?_⟩
          intro u hu hus
          rcases (mem_THRESHOLDS_iff u).mp hu with rfl | rfl | rfl | rfl | rfl | rfl | rfl | rfl | rfl | rfl | rfl | rfl <;> omega
        · constructor
          · intro hcon
            exact Option.noConfusion hcon
          · intro hlt
            exact absurd hlt (by omega)
      · rw [if_neg h500]
        by_cases h365 : 365 ≤ s
        · rw [if_pos h365]
          refine ⟨?_, ?_, ?_⟩
          · simp [getTier, Option.elim, h1000, h750, h500, h365]
          · intro t ht
            obtain rfl : (365 : Nat) = t := Option.some.inj ht
            refine ⟨by decide, h365, ?_⟩
            intro u hu hus
            rcases (mem_THRESHOLDS_iff u).mp hu with rfl | rfl | rfl | rfl | rfl | rfl | rfl | rfl | rfl | rfl | rfl | rfl <;> omega
          · constructor
            · intro hcon
              exact Option.noConfusion hcon
            · intro hlt
              exact absurd hlt (by omega)
        · rw [if_neg h365]
          by_cases h250 : 250 ≤ s
          · rw [if_pos h250]
            refine ⟨?_, ?_, ?_⟩
            · simp [getTier, Option.elim, h1000, h750, h500, h365, h250]
            · intro t ht
              obtain rfl : (250 : Nat) = t := Option.some.inj ht
              refine ⟨by decide, h250, ?_⟩
              intro u hu hus
              rcases (mem_THRESHOLDS_iff u).mp hu with rfl | rfl | rfl | rfl | rfl | rfl | rfl | rfl | rfl | rfl | rfl | rfl <;> omega
            · constructor
              · intro hcon
                exact Option.noConfusion hcon
              · intro hlt
                exact absurd hlt (by omega)
          · rw [if_neg h250]
            by_cases h100 : 100 ≤ s
            · rw [if_pos h100]
              refine ⟨?_, ?_, ?_⟩
              · simp [getTier, Option.elim, h1000, h750, h500, h365, h250, h100]
              · intro t ht
                obtain rfl : (100 : Nat) = t := Option.some.inj ht
                refine ⟨by decide, h100, ?_⟩
                intro u hu hus
                rcases (mem_THRESHOLDS_iff u).mp hu with rfl | rfl | rfl | rfl | rfl | rfl | rfl | rfl | rfl | rfl | rfl | rfl <;> omega
              · constructor
                · intro hcon
                  exact Option.noConfusion hcon
                · intro hlt
                  exact absurd hlt (by omega)
            · rw [if_neg h100]
              by_cases h50 : 50 ≤ s
              · rw [if_pos h50]
                refine ⟨?_, ?_, ?_⟩
                · simp [getTier, Option.elim, h1000, h750, h500, h365, h250, h100, h50]
                · intro t ht
                  obtain rfl : (50 : Nat) = t := Option.some.inj ht
                  refine ⟨by decide, h50, ?_⟩
                  intro u hu hus
                  rcases (mem_THRESHOLDS_iff u).mp hu with rfl | rfl | rfl | rfl | rfl | rfl | rfl | rfl | rfl | rfl | rfl | rfl <;> omega
                · constructor
                  · intro hcon
                    exact Option.noConfusion hcon
                  · intro hlt
                    exact absurd hlt (by omega)
              · rw [if_neg h50]
                by_cases h30 : 30 ≤ s
                · rw [if_pos h30]
                  refine ⟨?_, ?_, ?_⟩
                  · simp [getTier, Option.elim, h1000, h750, h500, h365, h250, h100, h50, h30]
                  · intro t ht
                    obtain rfl : (30 : Nat) = t := Option.some.inj ht
                    refine ⟨by decide, h30, ?_⟩
                    intro u hu hus
                    rcases (mem_THRESHOLDS_iff u).mp hu with rfl | rfl | rfl | rfl | rfl | rfl | rfl | rfl | rfl | rfl | rfl | rfl <;> omega
                  · constructor
                    · intro hcon
                      exact Option.noConfusion hcon
                    · intro hlt
                      exact absurd hlt (by omega)
                · rw [if_neg h30]
                  by_cases h21 : 21 ≤ s
                  · rw [if_pos h21]
                    refine ⟨?_, ?_, ?_⟩
                    · simp [getTier, Option.elim, h1000, h750, h500, h365, h250, h100, h50, h30, h21]
                    · intro t ht
                      obtain rfl : (21 : Nat) = t := Option.some.inj ht
                      refine ⟨by decide, h21, ?_⟩
                      intro u hu hus
                      rcases (mem_THRESHOLDS_iff u).mp hu with rfl | rfl | rfl | rfl | rfl | rfl | rfl | rfl | rfl | rfl | rfl | rfl <;> omega
                    · constructor
                      · intro hcon
                        exact Option.noConfusion hcon
                      · intro hlt
                        exact absurd hlt (by omega)
                  · rw [if_neg h21]
                    by_cases h14 : 14 ≤ s
                    · rw [if_pos h14]
                      refine ⟨?_, ?_, ?_⟩
                      · simp [getTier, Option.elim, h1000, h750, h500, h365, h250, h100, h50, h30, h21, h14]
                      · intro t ht
                        obtain rfl : (14 : Nat) = t := Option.some.inj ht
                        refine ⟨by decide, h14, ?_⟩
                        intro u hu hus
                        rcases (mem_THRESHOLDS_iff u).mp hu with rfl | rfl | rfl | rfl | rfl | rfl | rfl | rfl | rfl | rfl | rfl | rfl <;> omega
                      · constructor
                        · intro hcon
                          exact Option.noConfusion hcon
                        · intro hlt
                          exact absurd hlt (by omega)
                    · rw [if_neg h14]
                      by_cases h7 : 7 ≤ s
                      · rw [if_pos h7]
                        refine ⟨?_, ?_, ?_⟩
                        · simp [getTier, Option.elim, h1000, h750, h500, h365, h250, h100, h50, h30, h21, h14, h7]
                        · intro t ht
                          obtain rfl : (7 : Nat) = t := Option.some.inj ht
                          refine ⟨by decide, h7, ?_⟩
                          intro u hu hus
                          rcases (mem_THRESHOLDS_iff u).mp hu with rfl | rfl | rfl | rfl | rfl | rfl | rfl | rfl | rfl | rfl | rfl | rfl <;> omega
                        · constructor
                          · intro hcon
                            exact Option.noConfusion hcon
                          · intro hlt
                            exact absurd hlt (by omega)
                      · rw [if_neg h7]
                        by_cases h3 : 3 ≤ s
                        · rw [if_pos h3]
                          refine ⟨?_, ?_, ?_⟩
                          · simp [getTier, Option.elim, h1000, h750, h500, h365, h250, h100, h50, h30, h21, h14, h7, h3]
                          · intro t ht
                            obtain rfl : (3 : Nat) = t := Option.some.inj ht
                            refine ⟨by decide, h3, ?_⟩
                            intro u hu hus
                            rcases (mem_THRESHOLDS_iff u).mp hu with rfl | rfl | rfl | rfl | rfl | rfl | rfl | rfl | rfl | rfl | rfl | rfl <;> omega
                          · constructor
                            · intro hcon
                              exact Option.noConfusion hcon
                            · intro hlt
                              exact absurd hlt (by omega)
                        · rw [if_neg h3]
                          refine ⟨?_, ?_, ?_⟩
                          · simp [getTier, Option.elim, h1000, h750, h500, h365, h250, h100, h50, h30, h21, h14, h7, h3]
                          · intro t ht
                            exact Option.noConfusion ht
                          · constructor
                            · intro _
                              omega
                            · intro _
                              rfl

end GhStreaks
